import Mathlib

/-!
Shallow embedding of the rusty_hashmap repository (src/lib.rs): a separate
chaining hash table with power-of-two bucket masking, load-factor-driven
resizing, an entry API and an iterator.

Modelling conventions:
* Rust usize / u64 values are modelled as Nat; wrapping casts are written
  with an explicit mod 2^64.
* A panic (index out of bounds on the bucket vector) is modelled by the
  outer Option of a result: none means the operation faults, some r means
  it completes and returns r.
* The hash function (std DefaultHasher, deterministic per key) is an
  arbitrary parameter hash : K -> Nat; its finish() value is a u64,
  modelled by reducing mod 2^64 at the point of use.
* Rust Eq on keys is modelled by propositional equality with DecidableEq.
-/

namespace RustyHashmap

/-- Two to the 64th power, the modulus of u64 arithmetic. -/
def U64 : Nat := 2 ^ 64

/-- const INITIAL_NBUCKET: usize = 1 -/
def INITIAL_NBUCKET : Nat := 1

/-- The Hashmap struct: a vector of buckets, each a vector of pairs, plus
the items counter. -/
structure Hashmap (K V : Type) where
  buckets : List (List (K × V))
  items : Nat
deriving DecidableEq

variable {K V : Type} [DecidableEq K]

namespace Hashmap

/-- Hashmap::new: empty bucket vector, zero items. -/
def new : Hashmap K V := { buckets := [], items := 0 }

/-- Hashmap::len: returns the items counter. -/
def len (m : Hashmap K V) : Nat := m.items

/-- Hashmap::is_empty: items == 0. -/
def isEmpty (m : Hashmap K V) : Bool := m.items == 0

/-- The index computation (hasher.finish() & (n - 1) as u64) as usize,
parametrised by the bucket count n.  The subtraction n - 1 is usize
arithmetic: for n = 0 Rust faults (debug) or wraps to 2^64-1 and the
subsequent bucket access faults; the wrapped value (n + 2^64 - 1) % 2^64
makes the fault surface as an out-of-range index at the point of use. -/
def maskIdx (hash : K → Nat) (n : Nat) (k : K) : Nat :=
  Nat.land (hash k % U64) ((n + U64 - 1) % U64)

/-- Hashmap::bucket: index of the bucket for a key, against the current
bucket count. -/
def bucket (hash : K → Nat) (m : Hashmap K V) (k : K) : Nat :=
  maskIdx hash m.buckets.length k

/-- All stored pairs in bucket order (abstraction used by the spec). -/
def pairs (m : Hashmap K V) : List (K × V) := m.buckets.flatten

/-- The linear scan of get: first value stored under an equal key. -/
def scanFind (k : K) : List (K × V) → Option V
  | [] => none
  | (ek, ev) :: rest => if ek = k then some ev else scanFind k rest

/-- The linear scan of contains_key: any pair with an equal key. -/
def scanContains (k : K) : List (K × V) → Bool
  | [] => false
  | (ek, _) :: rest => if ek = k then true else scanContains k rest

/-- The scan of insert: replace the value of the first pair with an equal
key (mem::replace), returning the updated bucket and the old value. -/
def scanReplace (k : K) (v : V) : List (K × V) → Option (List (K × V) × V)
  | [] => none
  | (ek, ev) :: rest =>
    if ek = k then some ((ek, v) :: rest, ev)
    else (scanReplace k v rest).map (fun r => ((ek, ev) :: r.1, r.2))

/-- Iterator::position of a pair with an equal key. -/
def scanPos (k : K) : List (K × V) → Option Nat
  | [] => none
  | (ek, _) :: rest =>
    if ek = k then some 0 else (scanPos k rest).map (· + 1)

/-- Vec::swap_remove: return element i, move the last element into its
place, drop the last slot; none if i is out of range. -/
def swapRemove (l : List α) (i : Nat) : Option (α × List α) :=
  match l[i]?, l.getLast? with
  | some x, some lst => some (x, (l.set i lst).dropLast)
  | _, _ => none

/-- new_bucket[i].push(x): faults (none) when i is out of range. -/
def pushAt (bs : List (List α)) (i : Nat) (x : α) : Option (List (List α)) :=
  match bs[i]? with
  | none => none
  | some b => some (bs.set i (b ++ [x]))

/-- The let target binding of resize: INITIAL_NBUCKET when the bucket
count is zero, else double it. -/
def targetSize (n : Nat) : Nat :=
  match n with
  | 0 => INITIAL_NBUCKET
  | n => 2 * n

/-- Hashmap::resize: target count 1 when empty else doubled; fresh empty
buckets; every pair drained in bucket order is rehashed against the new
count and pushed into its new bucket. -/
def resize (hash : K → Nat) (m : Hashmap K V) : Option (Hashmap K V) :=
  ((pairs m).foldlM (fun acc p => pushAt acc (maskIdx hash acc.length p.1) p)
      (List.replicate (targetSize m.buckets.length) [])).map
    (fun bs => { buckets := bs, items := m.items })

/-- The resize guard shared verbatim by insert and entry:
if self.buckets.is_empty() or items > 3 * len / 4 then resize. -/
def maybeResize (hash : K → Nat) (m : Hashmap K V) : Option (Hashmap K V) :=
  if m.buckets.isEmpty || decide (m.items > 3 * m.buckets.length / 4) then
    resize hash m
  else some m

/-- Hashmap::insert: resize guard, locate the bucket, scan-replace an
equal key returning the old value, else increment items and push. -/
def insert (hash : K → Nat) (m : Hashmap K V) (k : K) (v : V) :
    Option (Hashmap K V × Option V) :=
  match maybeResize hash m with
  | none => none
  | some m1 =>
    let i := bucket hash m1 k
    match m1.buckets[i]? with
    | none => none
    | some b =>
      match scanReplace k v b with
      | some r => some ({ buckets := m1.buckets.set i r.1, items := m1.items },
                        some r.2)
      | none => some ({ buckets := m1.buckets.set i (b ++ [(k, v)]),
                        items := m1.items + 1 }, none)

/-- Hashmap::get: index into the bucket vector (may fault on an empty
table), then linear scan. -/
def get (hash : K → Nat) (m : Hashmap K V) (k : K) : Option (Option V) :=
  match m.buckets[bucket hash m k]? with
  | none => none
  | some b => some (scanFind k b)

/-- Hashmap::contains_key: same access pattern as get, presence only. -/
def containsKey (hash : K → Nat) (m : Hashmap K V) (k : K) : Option Bool :=
  match m.buckets[bucket hash m k]? with
  | none => none
  | some b => some (scanContains k b)

/-- Hashmap::remove: locate bucket (may fault), find the position of the
key; absent: return none leaving the map unchanged; present: decrement
items and swap_remove the pair.  The usize decrement items - 1 is written
with Nat subtraction; Rust would fault or wrap when items = 0, a state the
items-vs-pairs hypothesis of the theorems rules out. -/
def remove (hash : K → Nat) (m : Hashmap K V) (k : K) :
    Option (Hashmap K V × Option V) :=
  let i := bucket hash m k
  match m.buckets[i]? with
  | none => none
  | some b =>
    match scanPos k b with
    | none => some (m, none)
    | some j =>
      match swapRemove b j with
      | none => none
      | some r => some ({ buckets := m.buckets.set i r.2,
                          items := m.items - 1 }, some r.1.2)

/-- Hashmap::entry followed by Entry::insert_or, fused because the Entry
value borrows the table: resize guard, locate the bucket, position scan;
occupied returns the existing value with the table unchanged; vacant
pushes (key, default) into the bucket (VacantEntry::insert does not touch
the items counter) and returns the inserted value. -/
def entryInsertOr (hash : K → Nat) (m : Hashmap K V) (k : K) (d : V) :
    Option (Hashmap K V × V) :=
  match maybeResize hash m with
  | none => none
  | some m1 =>
    let i := bucket hash m1 k
    match m1.buckets[i]? with
    | none => none
    | some b =>
      match scanPos k b with
      | some j =>
        match b[j]? with
        | none => none
        | some p => some (m1, p.2)
      | none => some ({ buckets := m1.buckets.set i (b ++ [(k, d)]),
                        items := m1.items }, d)

/-- Entry::or_default: insert_or with the Default value of V. -/
def entryOrDefault [Inhabited V] (hash : K → Nat) (m : Hashmap K V) (k : K) :
    Option (Hashmap K V × V) :=
  entryInsertOr hash m k default

/-- Iter::next at cursor (current_bucket, current_item): yield the item and
advance the item index, else move to the next bucket, else end.  The
returned pair carries the cursor state after the call. -/
def iterNext (m : Hashmap K V) (cb ci : Nat) :
    Option ((K × V) × Nat × Nat) :=
  match hb : m.buckets[cb]? with
  | none => none
  | some b =>
    match b[ci]? with
    | some p => some (p, cb, ci + 1)
    | none => iterNext m (cb + 1) 0
termination_by m.buckets.length - cb
decreasing_by
  have hlt : cb < m.buckets.length := (List.getElem?_eq_some.mp hb).1
  omega

/-- The full traversal from a cursor: repeated Iter::next until none, with
the loop body inlined (the lemma iterAll_iterNext relates it to iterNext
step by step). -/
def iterAll (m : Hashmap K V) (cb ci : Nat) : List (K × V) :=
  match hb : m.buckets[cb]? with
  | none => []
  | some b =>
    match hp : b[ci]? with
    | some p => p :: iterAll m cb (ci + 1)
    | none => iterAll m (cb + 1) 0
termination_by (m.buckets.length - cb, (m.buckets[cb]?.getD []).length - ci)
decreasing_by
  · have hci : ci < b.length := (List.getElem?_eq_some.mp hp).1
    have hb' : m.buckets[cb]?.getD [] = b := by
      rw [hb]
      rfl
    rw [hb']
    right
    omega
  · have hlt : cb < m.buckets.length := (List.getElem?_eq_some.mp hb).1
    left
    omega

/-- What the cursor still has to visit: the rest of the current bucket,
then all later buckets. -/
def remaining (m : Hashmap K V) (cb ci : Nat) : List (K × V) :=
  match m.buckets.drop cb with
  | [] => []
  | b :: rest => b.drop ci ++ rest.flatten

end Hashmap

/-- A public mutating operation of the table.  or_default is entryInsertOr
at the default value, so the entryInsertOr case subsumes it. -/
inductive Op (K V : Type) where
  | insert (k : K) (v : V)
  | remove (k : K)
  | entryInsertOr (k : K) (d : V)
  | resize

/-- Run one public operation, keeping the resulting table; none when the
operation faults. -/
def applyOp (hash : K → Nat) (m : Hashmap K V) : Op K V → Option (Hashmap K V)
  | .insert k v => (Hashmap.insert hash m k v).map Prod.fst
  | .remove k => (Hashmap.remove hash m k).map Prod.fst
  | .entryInsertOr k d => (Hashmap.entryInsertOr hash m k d).map Prod.fst
  | .resize => Hashmap.resize hash m

/-- Run a list of public operations left to right. -/
def execOps (hash : K → Nat) (m : Hashmap K V) (ops : List (Op K V)) :
    Option (Hashmap K V) :=
  ops.foldlM (applyOp hash) m

/-- Tables reachable from Hashmap::new by completed public operations. -/
inductive Reachable (hash : K → Nat) : Hashmap K V → Prop
  | new : Reachable hash Hashmap.new
  | insert {m m' : Hashmap K V} {k : K} {v : V} {r : Option V} :
      Reachable hash m → Hashmap.insert hash m k v = some (m', r) →
      Reachable hash m'
  | remove {m m' : Hashmap K V} {k : K} {r : Option V} :
      Reachable hash m → Hashmap.remove hash m k = some (m', r) →
      Reachable hash m'
  | entry {m m' : Hashmap K V} {k : K} {d v : V} :
      Reachable hash m → Hashmap.entryInsertOr hash m k d = some (m', v) →
      Reachable hash m'
  | resize {m m' : Hashmap K V} :
      Reachable hash m → Hashmap.resize hash m = some m' →
      Reachable hash m'

/-- Does an operation insert or remove exactly this key. -/
def touchesKey (k : K) : Op K V → Bool
  | .insert k' _ => decide (k' = k)
  | .remove k' => decide (k' = k)
  | .entryInsertOr _ _ => false
  | .resize => false

/-- Bucket counts are powers of two. -/
def Pow2 (n : Nat) : Prop := ∃ i : Nat, n = 2 ^ i

/-- Every pair sits in the bucket its key hashes to (stated over enum so
that it is decidable on concrete tables). -/
def Placed (hash : K → Nat) (m : Hashmap K V) : Prop :=
  ∀ pr ∈ m.buckets.enum, ∀ q ∈ pr.2,
    Hashmap.maskIdx hash m.buckets.length q.1 = pr.1

/-- No two stored pairs share a key. -/
def NodupKeys (m : Hashmap K V) : Prop :=
  ((Hashmap.pairs m).map Prod.fst).Nodup

/-- The structural invariant of reachable tables: the bucket count is zero
or a power of two, every pair is in its bucket, and keys are unique.  The
items counter is deliberately not part of it (see the entry theorems). -/
def Inv (hash : K → Nat) (m : Hashmap K V) : Prop :=
  (m.buckets.length = 0 ∨ Pow2 m.buckets.length) ∧ Placed hash m ∧ NodupKeys m

instance (hash : K → Nat) (m : Hashmap K V) : Decidable (Placed hash m) := by
  unfold Placed
  infer_instance

instance (m : Hashmap K V) : Decidable (NodupKeys m) := by
  unfold NodupKeys
  infer_instance

namespace Hashmap

lemma scanFind_eq_none_iff {k : K} {b : List (K × V)} :
    scanFind k b = none ↔ ∀ p ∈ b, p.1 ≠ k := by
  induction b with
  | nil => simp [scanFind]
  | cons hd tl ih =>
    obtain ⟨ek, ev⟩ := hd
    by_cases h : ek = k <;> simp [scanFind, h, ih]

lemma scanFind_some_mem {k : K} {b : List (K × V)} {v : V}
    (h : scanFind k b = some v) : (k, v) ∈ b := by
  induction b with
  | nil => simp [scanFind] at h
  | cons hd tl ih =>
    obtain ⟨ek, ev⟩ := hd
    by_cases hek : ek = k
    · simp only [scanFind, if_pos hek] at h
      cases h
      simp [hek]
    · simp only [scanFind, if_neg hek] at h
      exact List.mem_cons_of_mem _ (ih h)

lemma scanFind_of_mem_nodup {k : K} {b : List (K × V)} {v : V}
    (hnd : (b.map Prod.fst).Nodup) (hm : (k, v) ∈ b) :
    scanFind k b = some v := by
  induction b with
  | nil => simp at hm
  | cons hd tl ih =>
    obtain ⟨ek, ev⟩ := hd
    simp only [List.map_cons, List.nodup_cons] at hnd
    rcases List.mem_cons.mp hm with h | h
    · cases h
      simp [scanFind]
    · have hek : ek ≠ k := by
        intro he
        exact hnd.1 (he ▸ (List.mem_map.mpr ⟨(k, v), h, rfl⟩))
      simp [scanFind, hek, ih hnd.2 h]

lemma scanContains_iff {k : K} {b : List (K × V)} :
    scanContains k b = true ↔ ∃ v, (k, v) ∈ b := by
  induction b with
  | nil => simp [scanContains]
  | cons hd tl ih =>
    obtain ⟨ek, ev⟩ := hd
    by_cases h : ek = k
    · subst h
      simp [scanContains]
    · simp only [scanContains, if_neg h, ih]
      constructor
      · rintro ⟨v, hv⟩
        exact ⟨v, List.mem_cons_of_mem _ hv⟩
      · rintro ⟨v, hv⟩
        rcases List.mem_cons.mp hv with he | he
        · cases he; exact absurd rfl h
        · exact ⟨v, he⟩

lemma scanReplace_eq_none_iff {k : K} {v : V} {b : List (K × V)} :
    scanReplace k v b = none ↔ ∀ p ∈ b, p.1 ≠ k := by
  induction b with
  | nil => simp [scanReplace]
  | cons hd tl ih =>
    obtain ⟨ek, ev⟩ := hd
    by_cases h : ek = k <;>
      simp [scanReplace, h, ih, Option.map_eq_none']

lemma scanReplace_some_decomp {k : K} {v v₀ : V} {b b' : List (K × V)}
    (h : scanReplace k v b = some (b', v₀)) :
    ∃ b₁ b₂, b = b₁ ++ (k, v₀) :: b₂ ∧ b' = b₁ ++ (k, v) :: b₂ := by
  induction b generalizing b' with
  | nil => simp [scanReplace] at h
  | cons hd tl ih =>
    obtain ⟨ek, ev⟩ := hd
    by_cases hek : ek = k
    · subst hek
      rw [scanReplace, if_pos rfl] at h
      have h' := Option.some.inj h
      injection h' with h1 h2
      subst h1; subst h2
      exact ⟨[], tl, by simp, by simp⟩
    · rw [scanReplace, if_neg hek] at h
      rcases hr : scanReplace k v tl with _ | ⟨r, w⟩
      · rw [hr] at h; simp at h
      · rw [hr] at h
        simp only [Option.map_some', Option.some.injEq] at h
        have hfst := congrArg Prod.fst h
        have hsnd := congrArg Prod.snd h
        simp only at hfst hsnd
        obtain ⟨b₁, b₂, hb, hb'⟩ := ih (show scanReplace k v tl = some (r, v₀) by
          rw [hr, hsnd])
        exact ⟨(ek, ev) :: b₁, b₂, by simp [hb], by simp [← hfst, hb']⟩

lemma scanPos_eq_none_iff {k : K} {b : List (K × V)} :
    scanPos k b = none ↔ ∀ p ∈ b, p.1 ≠ k := by
  induction b with
  | nil => simp [scanPos]
  | cons hd tl ih =>
    obtain ⟨ek, ev⟩ := hd
    by_cases h : ek = k <;> simp [scanPos, h, ih, Option.map_eq_none']

lemma scanPos_some {k : K} {b : List (K × V)} {j : Nat}
    (h : scanPos k b = some j) :
    ∃ p : K × V, b[j]? = some p ∧ p.1 = k := by
  induction b generalizing j with
  | nil => simp [scanPos] at h
  | cons hd tl ih =>
    obtain ⟨ek, ev⟩ := hd
    by_cases hek : ek = k
    · simp only [scanPos, if_pos hek, Option.some.injEq] at h
      exact ⟨(ek, ev), by simp [← h], hek⟩
    · simp only [scanPos, if_neg hek, Option.map_eq_some'] at h
      obtain ⟨j', hj', he⟩ := h
      obtain ⟨p, hp, hpk⟩ := ih hj'
      exact ⟨p, by simp [← he, hp], hpk⟩

lemma key_unique {l : List (K × V)} (hnd : (l.map Prod.fst).Nodup)
    {k : K} {a b : V} (ha : (k, a) ∈ l) (hb : (k, b) ∈ l) : a = b := by
  induction l with
  | nil => simp at ha
  | cons hd tl ih =>
    simp only [List.map_cons, List.nodup_cons] at hnd
    rcases List.mem_cons.mp ha with h1 | h1 <;>
      rcases List.mem_cons.mp hb with h2 | h2
    · rw [← h1] at h2; exact (Prod.mk.injEq .. ▸ h2).2.symm
    · exact absurd (List.mem_map.mpr ⟨(k, b), h2, by rw [← h1]⟩) hnd.1
    · exact absurd (List.mem_map.mpr ⟨(k, a), h1, by rw [← h2]⟩) hnd.1
    · exact ih hnd.2 h1 h2

lemma flatten_set_decomp {α : Type _} :
    ∀ (l : List (List α)) (i : Nat) (b : List α), l[i]? = some b →
      ∃ P S, l.flatten = P ++ b ++ S ∧ ∀ c, (l.set i c).flatten = P ++ c ++ S
  | [], i, b, h => by simp at h
  | x :: t, 0, b, h => by
    have hx : x = b := by simpa using h
    subst hx
    exact ⟨[], t.flatten, by simp, fun c => by simp⟩
  | x :: t, i + 1, b, h => by
    obtain ⟨P, S, hflat, hset⟩ := flatten_set_decomp t i b (by simpa using h)
    refine ⟨x ++ P, S, by simp [hflat], fun c => by simp [hset c]⟩

lemma swapRemove_spec {α : Type _} {l : List α} {j : Nat} (hj : j < l.length) :
    ∃ x l', swapRemove l j = some (x, l') ∧ l[j]? = some x ∧ (x :: l').Perm l := by
  have hne : l ≠ [] := by
    intro he; rw [he] at hj; simp at hj
  obtain ⟨lst, hlst⟩ : ∃ lst, l.getLast? = some lst :=
    Option.ne_none_iff_exists'.mp (mt List.getLast?_eq_none_iff.mp hne)
  have hjx : l[j]? = some l[j] := List.getElem?_eq_getElem hj
  refine ⟨l[j], (l.set j lst).dropLast, ?_, hjx, ?_⟩
  · unfold swapRemove
    rw [hjx, hlst]
  · -- decompose l as init ++ [lst]
    obtain ⟨ini, hini⟩ : ∃ ini, l = ini ++ [lst] :=
      List.getLast?_eq_some_iff.mp hlst
    by_cases hlast : j = ini.length
    · -- removing the final element: set is the identity there
      subst hini
      have : (ini ++ [lst]).set j lst = ini ++ [lst] := by
        subst hlast
        rw [List.set_append_right _ _ (Nat.le_refl _)]
        simp
      rw [this, List.dropLast_concat]
      have : (ini ++ [lst])[j] = lst := by
        subst hlast; simp
      rw [this]
      exact (List.perm_append_singleton lst ini).symm
    · -- j indexes into ini; the last element moves into the hole
      subst hini
      have hjlen : j < ini.length := by
        have := hj
        simp only [List.length_append, List.length_singleton] at this
        omega
      have hset : (ini ++ [lst]).set j lst = ini.set j lst ++ [lst] := by
        rw [List.set_append_left _ _ hjlen]
      rw [hset, List.dropLast_concat]
      have hgx : (ini ++ [lst])[j] = ini[j] := by
        rw [List.getElem_append_left hjlen]
      rw [hgx]
      -- ini[j] :: ini.set j lst is a permutation of ini ++ [lst]
      have hdec : ini.take j ++ ini[j] :: ini.drop (j + 1) = ini := by
        conv_rhs => rw [← List.take_append_drop j ini]
        congr 1
        exact List.getElem_cons_drop ini j hjlen
      have hsetd : ini.set j lst = ini.take j ++ lst :: ini.drop (j + 1) :=
        List.set_eq_take_cons_drop lst hjlen
      rw [hsetd]
      have h1 : (lst :: ini.drop (j + 1)).Perm (ini.drop (j + 1) ++ [lst]) :=
        (List.perm_append_singleton lst _).symm
      have h3 : (ini[j] :: (ini.take j ++ lst :: ini.drop (j + 1))).Perm
          (ini[j] :: (ini.take j ++ (ini.drop (j + 1) ++ [lst]))) :=
        (List.Perm.append_left _ h1).cons _
      have h4 : (ini[j] :: (ini.take j ++ (ini.drop (j + 1) ++ [lst]))).Perm
          (ini.take j ++ ini[j] :: (ini.drop (j + 1) ++ [lst])) :=
        List.perm_middle.symm
      have h5 := h3.trans h4
      have he : ini.take j ++ ini[j] :: (ini.drop (j + 1) ++ [lst])
          = (ini.take j ++ ini[j] :: ini.drop (j + 1)) ++ [lst] := by
        rw [List.append_assoc, List.cons_append]
      rw [he, hdec] at h5
      exact h5

lemma U64_pos : 0 < U64 := by
  unfold U64
  positivity

lemma maskIdx_lt {hash : K → Nat} {n : Nat} (hp : Pow2 n) (k : K) :
    maskIdx hash n k < n := by
  obtain ⟨i, rfl⟩ := hp
  have hpos : 0 < 2 ^ i := Nat.pos_pow_of_pos i (by norm_num)
  unfold maskIdx
  by_cases hle : 2 ^ i ≤ U64
  · have hmask : (2 ^ i + U64 - 1) % U64 = 2 ^ i - 1 := by
      have h1 : 2 ^ i + U64 - 1 = (2 ^ i - 1) + U64 := by omega
      rw [h1, Nat.add_mod_right]
      exact Nat.mod_eq_of_lt (by omega)
    rw [hmask]
    exact Nat.lt_of_le_of_lt (Nat.and_le_right) (by omega)
  · have hmask : (2 ^ i + U64 - 1) % U64 < U64 := Nat.mod_lt _ U64_pos
    exact Nat.lt_of_le_of_lt (Nat.le_trans Nat.and_le_right (Nat.le_of_lt_succ
      (Nat.lt_succ_of_lt hmask))) (by omega)

lemma placed_iff {hash : K → Nat} {m : Hashmap K V} :
    Placed hash m ↔ ∀ (i : Nat) (b : List (K × V)), m.buckets[i]? = some b →
      ∀ q ∈ b, maskIdx hash m.buckets.length q.1 = i := by
  constructor
  · intro h i b hib q hq
    exact h (i, b) (List.mem_enum_iff_getElem?.mpr hib) q hq
  · intro h pr hpr q hq
    exact h pr.1 pr.2 (List.mem_enum_iff_getElem?.mp hpr) q hq

lemma mem_pairs_iff {m : Hashmap K V} {p : K × V} :
    p ∈ pairs m ↔ ∃ (i : Nat) (b : List (K × V)),
      m.buckets[i]? = some b ∧ p ∈ b := by
  unfold pairs
  rw [List.mem_flatten]
  constructor
  · rintro ⟨b, hb, hp⟩
    obtain ⟨i, hi⟩ := List.mem_iff_getElem?.mp hb
    exact ⟨i, b, hi, hp⟩
  · rintro ⟨i, b, hi, hp⟩
    exact ⟨b, List.mem_iff_getElem?.mpr ⟨i, hi⟩, hp⟩

lemma bucket_nodup {m : Hashmap K V} (hnd : NodupKeys m) {i : Nat}
    {b : List (K × V)} (hib : m.buckets[i]? = some b) :
    (b.map Prod.fst).Nodup := by
  obtain ⟨P, S, hflat, -⟩ := flatten_set_decomp m.buckets i b hib
  have h1 : ((P ++ b ++ S).map Prod.fst).Nodup := by
    rw [← hflat]; exact hnd
  simp only [List.map_append] at h1
  exact (h1.of_append_left).of_append_right

lemma mem_bucket_of_mem_pairs {hash : K → Nat} {m : Hashmap K V}
    (hinv : Inv hash m) {k : K} {v : V} (hm : (k, v) ∈ pairs m) :
    ∃ b, m.buckets[bucket hash m k]? = some b ∧ (k, v) ∈ b ∧
      bucket hash m k < m.buckets.length := by
  obtain ⟨i, b, hib, hpb⟩ := mem_pairs_iff.mp hm
  have hidx : maskIdx hash m.buckets.length k = i :=
    placed_iff.mp hinv.2.1 i b hib (k, v) hpb
  have : bucket hash m k = i := hidx
  rw [this]
  have hlt : i < m.buckets.length := (List.getElem?_eq_some.mp hib).1
  exact ⟨b, hib, hpb, hlt⟩

lemma length_pos_pow2 {hash : K → Nat} {m : Hashmap K V} (hinv : Inv hash m)
    (hpos : 0 < m.buckets.length) : Pow2 m.buckets.length := by
  rcases hinv.1 with h | h
  · omega
  · exact h

lemma get_ok {hash : K → Nat} {m : Hashmap K V} (hinv : Inv hash m)
    (hpos : 0 < m.buckets.length) (k : K) :
    ∃ b, m.buckets[bucket hash m k]? = some b ∧
      get hash m k = some (scanFind k b) := by
  have hlt : bucket hash m k < m.buckets.length :=
    maskIdx_lt (length_pos_pow2 hinv hpos) k
  refine ⟨m.buckets[bucket hash m k], List.getElem?_eq_getElem hlt, ?_⟩
  unfold get
  rw [List.getElem?_eq_getElem hlt]

lemma get_some_iff {hash : K → Nat} {m : Hashmap K V} (hinv : Inv hash m)
    {k : K} {v : V} :
    get hash m k = some (some v) ↔ (k, v) ∈ pairs m := by
  constructor
  · intro h
    unfold get at h
    rcases hb : m.buckets[bucket hash m k]? with _ | b
    · rw [hb] at h; simp at h
    · rw [hb] at h
      have := Option.some.inj h
      exact mem_pairs_iff.mpr ⟨_, _, hb, scanFind_some_mem this⟩
  · intro h
    obtain ⟨b, hib, hpb, -⟩ := mem_bucket_of_mem_pairs hinv h
    unfold get
    rw [hib]
    show some (scanFind k b) = some (some v)
    rw [scanFind_of_mem_nodup (bucket_nodup hinv.2.2 hib) hpb]

lemma get_none_iff {hash : K → Nat} {m : Hashmap K V} (hinv : Inv hash m)
    (hpos : 0 < m.buckets.length) {k : K} :
    get hash m k = some none ↔ ∀ v, (k, v) ∉ pairs m := by
  obtain ⟨b, hib, hg⟩ := get_ok hinv hpos k
  rw [hg]
  constructor
  · intro h v hv
    have hsf : scanFind k b = none := by
      have := Option.some.inj h
      exact this
    obtain ⟨b', hib', hpb', -⟩ := mem_bucket_of_mem_pairs hinv hv
    rw [hib] at hib'
    have hbb : b = b' := Option.some.inj hib'
    subst hbb
    exact scanFind_eq_none_iff.mp hsf (k, v) hpb' rfl
  · intro h
    have : scanFind k b = none := by
      rcases hs : scanFind k b with _ | v
      · rfl
      · exact absurd (mem_pairs_iff.mpr ⟨_, _, hib, scanFind_some_mem hs⟩)
          (h v)
    rw [this]

lemma containsKey_iff {hash : K → Nat} {m : Hashmap K V} (hinv : Inv hash m)
    (hpos : 0 < m.buckets.length) {k : K} :
    containsKey hash m k = some true ↔ ∃ v, (k, v) ∈ pairs m := by
  have hlt : bucket hash m k < m.buckets.length :=
    maskIdx_lt (length_pos_pow2 hinv hpos) k
  unfold containsKey
  rw [List.getElem?_eq_getElem hlt]
  constructor
  · intro h
    have := Option.some.inj h
    obtain ⟨v, hv⟩ := scanContains_iff.mp this
    exact ⟨v, mem_pairs_iff.mpr ⟨_, _, List.getElem?_eq_getElem hlt, hv⟩⟩
  · rintro ⟨v, hv⟩
    obtain ⟨b, hib, hpb, -⟩ := mem_bucket_of_mem_pairs hinv hv
    rw [List.getElem?_eq_getElem hlt] at hib
    have hbb := Option.some.inj hib
    rw [Option.some.injEq]
    rw [← hbb] at hpb
    exact scanContains_iff.mpr ⟨v, hpb⟩

lemma get_eq_of_same_mem {hash : K → Nat} {m m' : Hashmap K V}
    (hinv : Inv hash m) (hinv' : Inv hash m')
    (hpos : 0 < m.buckets.length) (hpos' : 0 < m'.buckets.length) {k : K}
    (hsame : ∀ v, (k, v) ∈ pairs m ↔ (k, v) ∈ pairs m') :
    get hash m k = get hash m' k := by
  obtain ⟨b, hib, hg⟩ := get_ok hinv hpos k
  obtain ⟨b', hib', hg'⟩ := get_ok hinv' hpos' k
  rw [hg, hg']
  rcases hs : scanFind k b with _ | v
  · rcases hs' : scanFind k b' with _ | v'
    · rfl
    · have : (k, v') ∈ pairs m' := mem_pairs_iff.mpr
        ⟨_, _, hib', scanFind_some_mem hs'⟩
      have hm := (hsame v').mpr this
      obtain ⟨bb, hibb, hpbb, -⟩ := mem_bucket_of_mem_pairs hinv hm
      rw [hib] at hibb
      have := Option.some.inj hibb
      subst this
      rw [scanFind_eq_none_iff] at hs
      exact absurd rfl (hs (k, v') hpbb)
  · have : (k, v) ∈ pairs m := mem_pairs_iff.mpr
      ⟨_, _, hib, scanFind_some_mem hs⟩
    have hm' := (hsame v).mp this
    obtain ⟨bb, hibb, hpbb, -⟩ := mem_bucket_of_mem_pairs hinv' hm'
    rw [hib'] at hibb
    have := Option.some.inj hibb
    subst this
    rw [scanFind_of_mem_nodup (bucket_nodup hinv'.2.2 hib') hpbb]

lemma pushAt_ok {α : Type _} {bs : List (List α)} {i : Nat} {x : α}
    {b : List α} (hib : bs[i]? = some b) :
    pushAt bs i x = some (bs.set i (b ++ [x])) := by
  unfold pushAt
  rw [hib]

lemma distribute_spec {hash : K → Nat} :
    ∀ (l : List (K × V)) (acc : List (List (K × V))),
      (∀ p ∈ l, maskIdx hash acc.length p.1 < acc.length) →
      (∀ i b, acc[i]? = some b → ∀ q ∈ b, maskIdx hash acc.length q.1 = i) →
      ∃ acc', l.foldlM (fun a p => pushAt a (maskIdx hash a.length p.1) p) acc
          = some acc' ∧
        acc'.length = acc.length ∧
        acc'.flatten.Perm (acc.flatten ++ l) ∧
        (∀ i b, acc'[i]? = some b → ∀ q ∈ b, maskIdx hash acc'.length q.1 = i)
  | [], acc, hlt, hplaced => ⟨acc, by simp, rfl, by simp, hplaced⟩
  | p :: l, acc, hlt, hplaced => by
    have hplt : maskIdx hash acc.length p.1 < acc.length :=
      hlt p (List.mem_cons_self p l)
    set i := maskIdx hash acc.length p.1 with hi
    have hib : acc[i]? = some acc[i] := List.getElem?_eq_getElem hplt
    set acc₁ := acc.set i (acc[i] ++ [p]) with hacc₁
    have hlen₁ : acc₁.length = acc.length := by
      rw [hacc₁, List.length_set]
    have hplaced₁ : ∀ j b, acc₁[j]? = some b →
        ∀ q ∈ b, maskIdx hash acc₁.length q.1 = j := by
      intro j b hjb q hq
      rw [hlen₁]
      by_cases hji : j = i
      · subst hji
        rw [hacc₁, List.getElem?_set_eq_of_lt _ hplt] at hjb
        have hb := Option.some.inj hjb
        rw [← hb] at hq
        rcases List.mem_append.mp hq with hq1 | hq1
        · exact hplaced _ _ hib q hq1
        · have hqp : q = p := by simpa using hq1
          rw [hqp, ← hi]
      · rw [hacc₁, List.getElem?_set_ne (Ne.symm hji)] at hjb
        exact hplaced j b hjb q hq
    obtain ⟨P, S, hflat, hset⟩ := flatten_set_decomp acc i acc[i] hib
    have hperm₁ : acc₁.flatten.Perm (acc.flatten ++ [p]) := by
      rw [hacc₁, hset (acc[i] ++ [p]), hflat]
      have h1 : (P ++ (acc[i] ++ [p]) ++ S) = P ++ acc[i] ++ ([p] ++ S) := by
        simp
      have h2 : (P ++ acc[i] ++ S ++ [p]) = P ++ acc[i] ++ (S ++ [p]) := by
        simp
      rw [h1, h2]
      exact List.Perm.append_left _ (List.perm_append_comm)
    obtain ⟨acc', hfold, hlen', hperm', hplaced'⟩ :=
      distribute_spec l acc₁
        (fun q hq => by rw [hlen₁]; exact hlt q (List.mem_cons_of_mem p hq))
        (fun j b hjb q hq => by
          have := hplaced₁ j b hjb q hq
          rwa [hlen₁] at this ⊢)
    refine ⟨acc', ?_, by rw [hlen', hlen₁], ?_, ?_⟩
    · rw [List.foldlM_cons, ← hi, pushAt_ok hib, ← hacc₁]
      exact hfold
    · have h3 := hperm'.trans (hperm₁.append_right l)
      have h4 : acc.flatten ++ [p] ++ l = acc.flatten ++ (p :: l) := by
        simp
      rwa [h4] at h3
    · exact hplaced'

lemma distribute_length {hash : K → Nat} :
    ∀ (l : List (K × V)) (acc acc' : List (List (K × V))),
      l.foldlM (fun a p => pushAt a (maskIdx hash a.length p.1) p) acc
        = some acc' →
      acc'.length = acc.length
  | [], acc, acc', h => by
    simp only [List.foldlM_nil] at h
    rw [Option.some.inj h]
  | p :: l, acc, acc', h => by
    rw [List.foldlM_cons] at h
    rcases hp : pushAt acc (maskIdx hash acc.length p.1) p with _ | acc₁
    · rw [hp] at h; simp at h
    · rw [hp] at h
      simp only [Option.bind_eq_bind, Option.some_bind] at h
      have hlen := distribute_length l acc₁ acc' h
      unfold pushAt at hp
      rcases hb : acc[maskIdx hash acc.length p.1]? with _ | b
      · rw [hb] at hp; simp at hp
      · rw [hb] at hp
        have := Option.some.inj hp
        rw [hlen, ← this, List.length_set]

lemma resize_len {hash : K → Nat} {m m' : Hashmap K V}
    (h : resize hash m = some m') :
    m'.buckets.length = targetSize m.buckets.length := by
  unfold resize at h
  rcases hf : (pairs m).foldlM
      (fun acc p => pushAt acc (maskIdx hash acc.length p.1) p)
      (List.replicate (targetSize m.buckets.length) []) with _ | bs
  · rw [hf] at h; simp at h
  · rw [hf] at h
    simp only [Option.map_some', Option.some.injEq] at h
    have hb : m'.buckets = bs := by rw [← h]
    rw [hb, distribute_length _ _ _ hf, List.length_replicate]

lemma targetSize_eq (n : Nat) : targetSize n = if n = 0 then 1 else 2 * n := by
  cases n <;> simp [targetSize, INITIAL_NBUCKET]

lemma targetSize_pow2 {n : Nat} (h : n = 0 ∨ Pow2 n) : Pow2 (targetSize n) := by
  rw [targetSize_eq]
  rcases h with h | ⟨i, rfl⟩
  · rw [if_pos h]
    exact ⟨0, rfl⟩
  · have hne : 2 ^ i ≠ 0 := Nat.pos_iff_ne_zero.mp (Nat.pos_pow_of_pos i (by norm_num))
    rw [if_neg hne]
    exact ⟨i + 1, (Nat.pow_succ 2 i).symm ▸ (Nat.mul_comm 2 (2 ^ i)) ▸ rfl⟩

lemma flatten_replicate_nil {α : Type _} :
    ∀ n : Nat, (List.replicate n ([] : List α)).flatten = []
  | 0 => rfl
  | n + 1 => by
    rw [List.replicate_succ, List.flatten_cons, List.nil_append]
    exact flatten_replicate_nil n

lemma resize_spec {hash : K → Nat} {m : Hashmap K V} (hinv : Inv hash m) :
    ∃ m', resize hash m = some m' ∧ m'.items = m.items ∧
      m'.buckets.length = targetSize m.buckets.length ∧
      (pairs m').Perm (pairs m) ∧ Inv hash m' := by
  have htp : Pow2 (targetSize m.buckets.length) := targetSize_pow2 hinv.1
  have hinit : ∀ i b,
      (List.replicate (targetSize m.buckets.length) ([] : List (K × V)))[i]?
        = some b →
      ∀ q ∈ b, maskIdx hash
        (List.replicate (targetSize m.buckets.length)
          ([] : List (K × V))).length q.1 = i := by
    intro i b hib q hq
    have hb : b = [] := by
      obtain ⟨h1, h2⟩ := List.getElem?_eq_some.mp hib
      rw [← h2, List.getElem_replicate]
    subst hb
    simp at hq
  obtain ⟨acc', hfold, hlen, hperm, hplaced⟩ := distribute_spec (pairs m) _
    (fun p _ => by
      rw [List.length_replicate]
      exact maskIdx_lt htp p.1)
    hinit
  rw [List.length_replicate] at hlen
  refine ⟨{ buckets := acc', items := m.items }, ?_, rfl, hlen, ?_, ?_⟩
  · unfold resize
    rw [hfold]
    rfl
  · have : (pairs { buckets := acc', items := m.items : Hashmap K V })
        = acc'.flatten := rfl
    rw [this]
    have h2 := hperm
    rw [flatten_replicate_nil, List.nil_append] at h2
    exact h2
  · refine ⟨Or.inr (hlen ▸ htp), ?_, ?_⟩
    · intro pr hpr q hq
      exact hplaced pr.1 pr.2 (List.mem_enum_iff_getElem?.mp hpr) q hq
    · unfold NodupKeys
      have hp : (pairs { buckets := acc', items := m.items : Hashmap K V }).Perm
          (pairs m) := by
        have h2 := hperm
        rw [flatten_replicate_nil, List.nil_append] at h2
        exact h2
      exact ((hp.map Prod.fst).nodup_iff).mpr hinv.2.2

lemma maybeResize_spec {hash : K → Nat} {m : Hashmap K V} (hinv : Inv hash m) :
    ∃ m1, maybeResize hash m = some m1 ∧ Inv hash m1 ∧ m1.items = m.items ∧
      (pairs m1).Perm (pairs m) ∧ 0 < m1.buckets.length := by
  unfold maybeResize
  by_cases hc : (m.buckets.isEmpty || decide (m.items > 3 * m.buckets.length / 4))
      = true
  · rw [if_pos hc]
    obtain ⟨m', h1, h2, h3, h4, h5⟩ := resize_spec hinv
    refine ⟨m', h1, h5, h2, h4, ?_⟩
    rw [h3, targetSize_eq]
    by_cases h0 : m.buckets.length = 0
    · rw [if_pos h0]; omega
    · rw [if_neg h0]; omega
  · rw [if_neg hc]
    refine ⟨m, rfl, hinv, rfl, List.Perm.refl _, ?_⟩
    simp only [Bool.or_eq_true, not_or] at hc
    have h1 : ¬ m.buckets.isEmpty = true := hc.1
    rw [List.isEmpty_iff] at h1
    have := List.length_pos.mpr h1
    omega

lemma insert_spec {hash : K → Nat} {m : Hashmap K V} (hinv : Inv hash m)
    (k : K) (v : V) :
    ∃ m' r, insert hash m k v = some (m', r) ∧ Inv hash m' ∧
      0 < m'.buckets.length ∧ (k, v) ∈ pairs m' ∧
      (∀ k' w, k' ≠ k → ((k', w) ∈ pairs m' ↔ (k', w) ∈ pairs m)) ∧
      ((∀ w, (k, w) ∉ pairs m) → r = none ∧ m'.items = m.items + 1 ∧
        (pairs m').Perm (pairs m ++ [(k, v)])) ∧
      (∀ w, (k, w) ∈ pairs m → r = some w ∧ m'.items = m.items ∧
        (pairs m').length = (pairs m).length) := by
  obtain ⟨m₁, hm₁, hinv₁, hit₁, hperm₁, hpos₁⟩ := maybeResize_spec hinv
  have hpow₁ : Pow2 m₁.buckets.length := length_pos_pow2 hinv₁ hpos₁
  have hlt : bucket hash m₁ k < m₁.buckets.length := maskIdx_lt hpow₁ k
  obtain ⟨b, hib⟩ : ∃ b, m₁.buckets[bucket hash m₁ k]? = some b :=
    ⟨_, List.getElem?_eq_getElem hlt⟩
  have hplaced₁ := placed_iff.mp hinv₁.2.1
  obtain ⟨P, S, hflat, hsetf⟩ :=
    flatten_set_decomp m₁.buckets (bucket hash m₁ k) b hib
  have hpairs₁ : pairs m₁ = P ++ b ++ S := hflat
  rcases hrep : scanReplace k v b with _ | ⟨b', v₀⟩
  · -- key absent from its bucket: append the pair, bump items
    have hnb : ∀ p ∈ b, p.1 ≠ k := scanReplace_eq_none_iff.mp hrep
    have hkabs₁ : ∀ w, (k, w) ∉ pairs m₁ := by
      intro w hw
      obtain ⟨bb, hibb, hpbb, -⟩ := mem_bucket_of_mem_pairs hinv₁ hw
      rw [hib] at hibb
      have hbb : b = bb := Option.some.inj hibb
      rw [← hbb] at hpbb
      exact hnb _ hpbb rfl
    have hkabs : ∀ w, (k, w) ∉ pairs m := by
      intro w hw
      exact hkabs₁ w (hperm₁.mem_iff.mpr hw)
    refine ⟨{ buckets := m₁.buckets.set (bucket hash m₁ k) (b ++ [(k, v)]),
              items := m₁.items + 1 }, none, ?_, ?_, ?_, ?_, ?_, ?_, ?_⟩
    · simp only [insert, hm₁, hib, hrep]
    · -- invariant
      refine ⟨?_, ?_, ?_⟩
      · right
        rw [List.length_set]
        exact hpow₁
      · rw [placed_iff]
        intro j bb hjb q hq
        simp only [List.length_set]
        by_cases hji : j = bucket hash m₁ k
        · subst hji
          rw [List.getElem?_set_eq_of_lt _ hlt] at hjb
          have hbb := Option.some.inj hjb
          rw [← hbb] at hq
          rcases List.mem_append.mp hq with hq1 | hq1
          · exact hplaced₁ _ _ hib q hq1
          · have hqp : q = (k, v) := by simpa using hq1
            rw [hqp]
            rfl
        · rw [List.getElem?_set_ne (Ne.symm hji)] at hjb
          exact hplaced₁ j bb hjb q hq
      · unfold NodupKeys
        show ((m₁.buckets.set (bucket hash m₁ k)
          (b ++ [(k, v)])).flatten.map Prod.fst).Nodup
        rw [hsetf]
        have hpm : (P ++ (b ++ [(k, v)]) ++ S).Perm ((P ++ b ++ S) ++ [(k, v)]) := by
          have h1 : P ++ (b ++ [(k, v)]) ++ S = P ++ b ++ ([(k, v)] ++ S) := by
            simp
          have h2 : (P ++ b ++ S) ++ [(k, v)] = P ++ b ++ (S ++ [(k, v)]) := by
            simp
          rw [h1, h2]
          exact List.Perm.append_left _ List.perm_append_comm
        rw [((hpm.map Prod.fst).nodup_iff)]
        have hpm2 : ((P ++ b ++ S) ++ [(k, v)]).Perm ((k, v) :: (P ++ b ++ S)) :=
          List.perm_append_singleton _ _
        rw [((hpm2.map Prod.fst).nodup_iff)]
        simp only [List.map_cons, List.nodup_cons]
        constructor
        · intro hk
          obtain ⟨⟨k2, w⟩, hmem, hfst⟩ := List.mem_map.mp hk
          have : (k, w) ∈ pairs m₁ := by
            rw [hpairs₁]
            have : k2 = k := hfst
            rw [← this]
            exact hmem
          exact hkabs₁ w this
        · rw [← hpairs₁]
          exact hinv₁.2.2
    · rw [List.length_set]; omega
    · show (k, v) ∈ (m₁.buckets.set (bucket hash m₁ k) (b ++ [(k, v)])).flatten
      rw [hsetf]
      simp
    · intro k' w hk'
      have hne1 : ¬ ((k', w) = (k, v)) := fun he => hk' (congrArg Prod.fst he)
      show (k', w) ∈ (m₁.buckets.set (bucket hash m₁ k)
        (b ++ [(k, v)])).flatten ↔ _
      rw [hsetf, ← hperm₁.mem_iff, hpairs₁]
      simp only [List.mem_append, List.mem_cons, List.not_mem_nil]
      tauto
    · intro _
      refine ⟨rfl, by show m₁.items + 1 = m.items + 1; omega, ?_⟩
      show ((m₁.buckets.set (bucket hash m₁ k)
        (b ++ [(k, v)])).flatten).Perm (pairs m ++ [(k, v)])
      rw [hsetf]
      have h1 : P ++ (b ++ [(k, v)]) ++ S = P ++ b ++ ([(k, v)] ++ S) := by simp
      have h2 : (P ++ b ++ S) ++ [(k, v)] = P ++ b ++ (S ++ [(k, v)]) := by simp
      have hpm : (P ++ (b ++ [(k, v)]) ++ S).Perm ((P ++ b ++ S) ++ [(k, v)]) := by
        rw [h1, h2]
        exact List.Perm.append_left _ List.perm_append_comm
      have hpm' : (P ++ (b ++ [(k, v)]) ++ S).Perm (pairs m₁ ++ [(k, v)]) := by
        rw [hpairs₁]
        exact hpm
      exact hpm'.trans (hperm₁.append_right [(k, v)])
    · intro w hw
      exact absurd hw (hkabs w)
  · -- key present: replace the value in place
    obtain ⟨b₁, b₂, hb, hb'⟩ := scanReplace_some_decomp hrep
    have hv₀ : (k, v₀) ∈ pairs m₁ := by
      rw [hpairs₁, hb]
      simp
    have hv₀m : (k, v₀) ∈ pairs m := hperm₁.mem_iff.mp hv₀
    refine ⟨{ buckets := m₁.buckets.set (bucket hash m₁ k) b',
              items := m₁.items }, some v₀, ?_, ?_, ?_, ?_, ?_, ?_, ?_⟩
    · simp only [insert, hm₁, hib, hrep]
    · refine ⟨?_, ?_, ?_⟩
      · right
        rw [List.length_set]
        exact hpow₁
      · rw [placed_iff]
        intro j bb hjb q hq
        simp only [List.length_set]
        by_cases hji : j = bucket hash m₁ k
        · subst hji
          rw [List.getElem?_set_eq_of_lt _ hlt] at hjb
          have hbb := Option.some.inj hjb
          rw [← hbb, hb'] at hq
          simp only [List.mem_append, List.mem_cons] at hq
          rcases hq with hq1 | hq1 | hq1
          · exact hplaced₁ _ _ hib q (by rw [hb]; simp [hq1])
          · rw [hq1]
            exact hplaced₁ _ _ hib (k, v₀) (by rw [hb]; simp)
          · exact hplaced₁ _ _ hib q (by rw [hb]; simp [hq1])
        · rw [List.getElem?_set_ne (Ne.symm hji)] at hjb
          exact hplaced₁ j bb hjb q hq
      · unfold NodupKeys
        show ((m₁.buckets.set (bucket hash m₁ k) b').flatten.map Prod.fst).Nodup
        rw [hsetf]
        have hkeys : (P ++ b' ++ S).map Prod.fst = (P ++ b ++ S).map Prod.fst := by
          rw [hb, hb']
          simp
        rw [hkeys, ← hpairs₁]
        exact hinv₁.2.2
    · rw [List.length_set]; omega
    · show (k, v) ∈ (m₁.buckets.set (bucket hash m₁ k) b').flatten
      rw [hsetf, hb']
      simp
    · intro k' w hk'
      have hne1 : ¬ ((k', w) = (k, v)) := fun he => hk' (congrArg Prod.fst he)
      have hne2 : ¬ ((k', w) = (k, v₀)) := fun he => hk' (congrArg Prod.fst he)
      show (k', w) ∈ (m₁.buckets.set (bucket hash m₁ k) b').flatten ↔ _
      rw [hsetf, ← hperm₁.mem_iff, hpairs₁, hb, hb']
      simp only [List.mem_append, List.mem_cons, List.not_mem_nil]
      tauto
    · intro habs
      exact absurd hv₀m (habs v₀)
    · intro w hw
      have hweq : w = v₀ := key_unique hinv.2.2 hw hv₀m
      refine ⟨by rw [hweq], hit₁, ?_⟩
      show ((m₁.buckets.set (bucket hash m₁ k) b').flatten).length
        = (pairs m).length
      rw [hsetf, ← hperm₁.length_eq, hpairs₁, hb, hb']
      simp

lemma remove_spec {hash : K → Nat} {m : Hashmap K V} (hinv : Inv hash m)
    {k : K} {m' : Hashmap K V} {r : Option V}
    (h : remove hash m k = some (m', r)) :
    Inv hash m' ∧ m'.buckets.length = m.buckets.length ∧
      0 < m.buckets.length ∧
      ((∀ w, (k, w) ∉ pairs m) → m' = m ∧ r = none) ∧
      (∀ w, (k, w) ∈ pairs m → r = some w ∧ m'.items = m.items - 1 ∧
        (pairs m).Perm ((k, w) :: pairs m') ∧ ∀ w', (k, w') ∉ pairs m') := by
  simp only [remove] at h
  rcases hib : m.buckets[bucket hash m k]? with _ | b
  · simp only [hib] at h
    exact Option.noConfusion h
  · simp only [hib] at h
    have hpos : 0 < m.buckets.length := by
      have := (List.getElem?_eq_some.mp hib).1
      omega
    have hplaced := placed_iff.mp hinv.2.1
    rcases hpo : scanPos k b with _ | j
    · simp only [hpo, Option.some.injEq] at h
      have hm' : m' = m := (congrArg Prod.fst h).symm
      have hr : r = none := (congrArg Prod.snd h).symm
      have hkabs : ∀ w, (k, w) ∉ pairs m := by
        intro w hw
        obtain ⟨bb, hibb, hpbb, -⟩ := mem_bucket_of_mem_pairs hinv hw
        rw [hib] at hibb
        have hbb : b = bb := Option.some.inj hibb
        rw [← hbb] at hpbb
        exact scanPos_eq_none_iff.mp hpo (k, w) hpbb rfl
      subst hm'
      refine ⟨hinv, rfl, hpos, fun _ => ⟨rfl, hr⟩, ?_⟩
      intro w hw
      exact absurd hw (hkabs w)
    · rw [hpo] at h
      obtain ⟨p, hpj, hpk⟩ := scanPos_some hpo
      have hjlt : j < b.length := (List.getElem?_eq_some.mp hpj).1
      obtain ⟨x, l', hsw, hxj, hxperm⟩ := swapRemove_spec hjlt
      have hxp : x = p := by
        rw [hxj] at hpj
        exact Option.some.inj hpj
      rw [hxp] at hsw hxperm
      simp only [hpo, hsw, Option.some.injEq] at h
      have hm' : m' = { buckets := m.buckets.set (bucket hash m k) l',
                        items := m.items - 1 } := (congrArg Prod.fst h).symm
      have hr : r = some p.2 := (congrArg Prod.snd h).symm
      obtain ⟨P, S, hflat, hsetf⟩ :=
        flatten_set_decomp m.buckets (bucket hash m k) b hib
      have hpairs : pairs m = P ++ b ++ S := hflat
      have hpairs' : pairs m' = P ++ l' ++ S := by
        rw [hm']
        exact hsetf l'
      have hpk2 : (k, p.2) ∈ pairs m := by
        rw [hpairs]
        have hm : p ∈ b := List.getElem?_mem hpj
        have hp2 : p = (k, p.2) := by
          rw [← hpk]
        rw [← hp2]
        simp [hm]
      -- key permutation fact: pairs m ~ p :: pairs m'
      have hperm : (pairs m).Perm (p :: pairs m') := by
        rw [hpairs, hpairs']
        have h1 : (P ++ b ++ S).Perm (P ++ (p :: l') ++ S) :=
          List.Perm.append (List.Perm.append_left P hxperm.symm)
            (List.Perm.refl S)
        have h2 : P ++ (p :: l') ++ S = P ++ p :: (l' ++ S) := by
          simp
        have h3 : (P ++ p :: (l' ++ S)).Perm (p :: (P ++ (l' ++ S))) :=
          List.perm_middle
        have h4 : p :: (P ++ (l' ++ S)) = p :: (P ++ l' ++ S) := by
          simp
        rw [h2] at h1
        rw [h4] at h3
        exact h1.trans h3
      have hkeysnd : (k :: (pairs m').map Prod.fst).Nodup := by
        have hmap := hperm.map Prod.fst
        simp only [List.map_cons, hpk] at hmap
        exact (hmap.nodup_iff).mp hinv.2.2
      have hknotin' : ∀ w', (k, w') ∉ pairs m' := by
        intro w' hw'
        have : k ∈ (pairs m').map Prod.fst :=
          List.mem_map.mpr ⟨(k, w'), hw', rfl⟩
        exact (List.nodup_cons.mp hkeysnd).1 this
      have hinv' : Inv hash m' := by
        refine ⟨?_, ?_, ?_⟩
        · rw [hm']
          show (m.buckets.set (bucket hash m k) l').length = 0 ∨ _
          rw [List.length_set]
          exact hinv.1
        · rw [placed_iff]
          intro i bb hibb q hq
          have hlen : m'.buckets.length = m.buckets.length := by
            rw [hm']
            exact List.length_set ..
          rw [hlen]
          rw [hm'] at hibb
          by_cases hji : i = bucket hash m k
          · subst hji
            rw [List.getElem?_set_eq_of_lt _ (by
              have := (List.getElem?_eq_some.mp hib).1
              exact this)] at hibb
            have hbb := Option.some.inj hibb
            rw [← hbb] at hq
            have hqb : q ∈ b := hxperm.mem_iff.mp (List.mem_cons_of_mem p hq)
            exact hplaced _ _ hib q hqb
          · rw [List.getElem?_set_ne (Ne.symm hji)] at hibb
            exact hplaced i bb hibb q hq
        · unfold NodupKeys
          exact (List.nodup_cons.mp hkeysnd).2
      have hlen' : m'.buckets.length = m.buckets.length := by
        rw [hm']
        exact List.length_set ..
      refine ⟨hinv', hlen', hpos, ?_, ?_⟩
      · intro habs
        exact absurd hpk2 (habs p.2)
      · intro w hw
        have hweq : w = p.2 := key_unique hinv.2.2 hw hpk2
        have hp2 : p = (k, w) := by
          rw [hweq, ← hpk]
        refine ⟨by rw [hr, hweq], by rw [hm'], ?_, hknotin'⟩
        rw [← hp2]
        exact hperm

lemma entry_spec {hash : K → Nat} {m : Hashmap K V} (hinv : Inv hash m)
    (k : K) (d : V) :
    ∃ m' rv, entryInsertOr hash m k d = some (m', rv) ∧ Inv hash m' ∧
      0 < m'.buckets.length ∧ m'.items = m.items ∧
      (∀ w, (k, w) ∈ pairs m → rv = w ∧ (pairs m').Perm (pairs m)) ∧
      ((∀ w, (k, w) ∉ pairs m) → rv = d ∧
        (pairs m').Perm (pairs m ++ [(k, d)]) ∧ (k, d) ∈ pairs m') ∧
      (∀ k' w, k' ≠ k → ((k', w) ∈ pairs m' ↔ (k', w) ∈ pairs m)) := by
  obtain ⟨m₁, hm₁, hinv₁, hit₁, hperm₁, hpos₁⟩ := maybeResize_spec hinv
  have hpow₁ : Pow2 m₁.buckets.length := length_pos_pow2 hinv₁ hpos₁
  have hlt : bucket hash m₁ k < m₁.buckets.length := maskIdx_lt hpow₁ k
  obtain ⟨b, hib⟩ : ∃ b, m₁.buckets[bucket hash m₁ k]? = some b :=
    ⟨_, List.getElem?_eq_getElem hlt⟩
  have hplaced₁ := placed_iff.mp hinv₁.2.1
  obtain ⟨P, S, hflat, hsetf⟩ :=
    flatten_set_decomp m₁.buckets (bucket hash m₁ k) b hib
  have hpairs₁ : pairs m₁ = P ++ b ++ S := hflat
  rcases hpo : scanPos k b with _ | j
  · -- vacant: push (k, d) without touching items
    have hnb : ∀ p ∈ b, p.1 ≠ k := scanPos_eq_none_iff.mp hpo
    have hkabs₁ : ∀ w, (k, w) ∉ pairs m₁ := by
      intro w hw
      obtain ⟨bb, hibb, hpbb, -⟩ := mem_bucket_of_mem_pairs hinv₁ hw
      rw [hib] at hibb
      have hbb : b = bb := Option.some.inj hibb
      rw [← hbb] at hpbb
      exact hnb _ hpbb rfl
    have hkabs : ∀ w, (k, w) ∉ pairs m := by
      intro w hw
      exact hkabs₁ w (hperm₁.mem_iff.mpr hw)
    refine ⟨{ buckets := m₁.buckets.set (bucket hash m₁ k) (b ++ [(k, d)]),
              items := m₁.items }, d, ?_, ?_, ?_, hit₁, ?_, ?_, ?_⟩
    · simp only [entryInsertOr, hm₁, hib, hpo]
    · refine ⟨?_, ?_, ?_⟩
      · right
        rw [List.length_set]
        exact hpow₁
      · rw [placed_iff]
        intro jj bb hjb q hq
        simp only [List.length_set]
        by_cases hji : jj = bucket hash m₁ k
        · subst hji
          rw [List.getElem?_set_eq_of_lt _ hlt] at hjb
          have hbb := Option.some.inj hjb
          rw [← hbb] at hq
          rcases List.mem_append.mp hq with hq1 | hq1
          · exact hplaced₁ _ _ hib q hq1
          · have hqp : q = (k, d) := by simpa using hq1
            rw [hqp]
            rfl
        · rw [List.getElem?_set_ne (Ne.symm hji)] at hjb
          exact hplaced₁ jj bb hjb q hq
      · unfold NodupKeys
        show ((m₁.buckets.set (bucket hash m₁ k)
          (b ++ [(k, d)])).flatten.map Prod.fst).Nodup
        rw [hsetf]
        have hpm : (P ++ (b ++ [(k, d)]) ++ S).Perm ((P ++ b ++ S) ++ [(k, d)]) := by
          have h1 : P ++ (b ++ [(k, d)]) ++ S = P ++ b ++ ([(k, d)] ++ S) := by
            simp
          have h2 : (P ++ b ++ S) ++ [(k, d)] = P ++ b ++ (S ++ [(k, d)]) := by
            simp
          rw [h1, h2]
          exact List.Perm.append_left _ List.perm_append_comm
        rw [((hpm.map Prod.fst).nodup_iff)]
        have hpm2 : ((P ++ b ++ S) ++ [(k, d)]).Perm ((k, d) :: (P ++ b ++ S)) :=
          List.perm_append_singleton _ _
        rw [((hpm2.map Prod.fst).nodup_iff)]
        simp only [List.map_cons, List.nodup_cons]
        constructor
        · intro hk
          obtain ⟨⟨k2, w⟩, hmem, hfst⟩ := List.mem_map.mp hk
          refine hkabs₁ w ?_
          rw [hpairs₁]
          have hk2 : k2 = k := hfst
          rw [← hk2]
          exact hmem
        · rw [← hpairs₁]
          exact hinv₁.2.2
    · rw [List.length_set]; omega
    · intro w hw
      exact absurd hw (hkabs w)
    · intro _
      refine ⟨rfl, ?_, ?_⟩
      · show ((m₁.buckets.set (bucket hash m₁ k)
          (b ++ [(k, d)])).flatten).Perm (pairs m ++ [(k, d)])
        rw [hsetf]
        have h1 : P ++ (b ++ [(k, d)]) ++ S = P ++ b ++ ([(k, d)] ++ S) := by
          simp
        have h2 : (P ++ b ++ S) ++ [(k, d)] = P ++ b ++ (S ++ [(k, d)]) := by
          simp
        have hpm : (P ++ (b ++ [(k, d)]) ++ S).Perm ((P ++ b ++ S) ++ [(k, d)]) := by
          rw [h1, h2]
          exact List.Perm.append_left _ List.perm_append_comm
        have hpm' : (P ++ (b ++ [(k, d)]) ++ S).Perm (pairs m₁ ++ [(k, d)]) := by
          rw [hpairs₁]
          exact hpm
        exact hpm'.trans (hperm₁.append_right [(k, d)])
      · show (k, d) ∈ (m₁.buckets.set (bucket hash m₁ k) (b ++ [(k, d)])).flatten
        rw [hsetf]
        simp
    · intro k' w hk'
      have hne1 : ¬ ((k', w) = (k, d)) := fun he => hk' (congrArg Prod.fst he)
      show (k', w) ∈ (m₁.buckets.set (bucket hash m₁ k)
        (b ++ [(k, d)])).flatten ↔ _
      rw [hsetf, ← hperm₁.mem_iff, hpairs₁]
      simp only [List.mem_append, List.mem_cons, List.not_mem_nil]
      tauto
  · -- occupied: return the existing value, map unchanged
    obtain ⟨p, hpj, hpk⟩ := scanPos_some hpo
    have hpb : p ∈ b := List.getElem?_mem hpj
    have hpm₁ : (k, p.2) ∈ pairs m₁ := by
      rw [hpairs₁]
      have hp2 : p = (k, p.2) := by rw [← hpk]
      rw [← hp2]
      simp [hpb]
    have hpmm : (k, p.2) ∈ pairs m := hperm₁.mem_iff.mp hpm₁
    refine ⟨m₁, p.2, ?_, hinv₁, hpos₁, hit₁, ?_, ?_, ?_⟩
    · simp only [entryInsertOr, hm₁, hib, hpo, hpj]
    · intro w hw
      exact ⟨(key_unique hinv.2.2 hw hpmm).symm, hperm₁⟩
    · intro habs
      exact absurd hpmm (habs p.2)
    · intro k' w _
      exact hperm₁.mem_iff

lemma inv_new {hash : K → Nat} : Inv hash (new : Hashmap K V) := by
  refine ⟨Or.inl rfl, ?_, ?_⟩
  · intro pr hpr
    simp [new, List.enum] at hpr
  · unfold NodupKeys pairs new
    simp

end Hashmap

namespace Hashmap

lemma applyOp_inv {hash : K → Nat} {m m' : Hashmap K V} (hinv : Inv hash m)
    {op : Op K V} (happ : applyOp hash m op = some m') : Inv hash m' := by
  cases op with
  | insert k v =>
    obtain ⟨m₂, r, heq, hinv', -⟩ := insert_spec hinv k v
    simp only [applyOp, heq, Option.map_some'] at happ
    have := Option.some.inj happ
    rw [← this]
    exact hinv'
  | remove k =>
    simp only [applyOp, Option.map_eq_some'] at happ
    obtain ⟨⟨m₂, r⟩, heq, hpr⟩ := happ
    have hspec := remove_spec hinv heq
    rw [← hpr]
    exact hspec.1
  | entryInsertOr k d =>
    obtain ⟨m₂, rv, heq, hinv', -⟩ := entry_spec hinv k d
    simp only [applyOp, heq, Option.map_some'] at happ
    have := Option.some.inj happ
    rw [← this]
    exact hinv'
  | resize =>
    obtain ⟨m₂, heq, -, -, -, hinv'⟩ := resize_spec hinv
    simp only [applyOp, heq] at happ
    have := Option.some.inj happ
    rw [← this]
    exact hinv'

lemma applyOp_preserves_key {hash : K → Nat} {m m' : Hashmap K V} {k : K}
    {v : V} (hinv : Inv hash m) (hmem : (k, v) ∈ pairs m) {op : Op K V}
    (hop : touchesKey k op = false) (happ : applyOp hash m op = some m') :
    (k, v) ∈ pairs m' := by
  cases op with
  | insert k' v' =>
    have hne : k' ≠ k := by
      simpa [touchesKey] using hop
    obtain ⟨m₂, r, heq, -, -, -, hframe, -⟩ := insert_spec hinv k' v'
    simp only [applyOp, heq, Option.map_some'] at happ
    have := Option.some.inj happ
    rw [← this]
    exact (hframe k v (fun he => hne he.symm)).mpr hmem
  | remove k' =>
    have hne : k' ≠ k := by
      simpa [touchesKey] using hop
    simp only [applyOp, Option.map_eq_some'] at happ
    obtain ⟨⟨m₂, r⟩, heq, hpr⟩ := happ
    obtain ⟨-, -, -, habsent, hpresent⟩ := remove_spec hinv heq
    rw [← hpr]
    by_cases hex : ∃ w, (k', w) ∈ pairs m
    · obtain ⟨w, hw⟩ := hex
      obtain ⟨-, -, hperm, -⟩ := hpresent w hw
      rcases List.mem_cons.mp (hperm.mem_iff.mp hmem) with he | he
      · exact absurd (congrArg Prod.fst he).symm hne
      · exact he
    · push_neg at hex
      obtain ⟨hm2, -⟩ := habsent hex
      rw [hm2]
      exact hmem
  | entryInsertOr k' d =>
    obtain ⟨m₂, rv, heq, -, -, -, hpresent, habsent, hframe⟩ :=
      entry_spec hinv k' d
    simp only [applyOp, heq, Option.map_some'] at happ
    have := Option.some.inj happ
    rw [← this]
    by_cases hkk : k' = k
    · subst hkk
      obtain ⟨-, hperm⟩ := hpresent v hmem
      exact hperm.mem_iff.mpr hmem
    · exact (hframe k v (fun he => hkk he.symm)).mpr hmem
  | resize =>
    obtain ⟨m₂, heq, -, -, hperm, -⟩ := resize_spec hinv
    simp only [applyOp, heq] at happ
    have := Option.some.inj happ
    rw [← this]
    exact hperm.mem_iff.mpr hmem

lemma execOps_preserves_key {hash : K → Nat} {k : K} {v : V} :
    ∀ (ops : List (Op K V)) (m mf : Hashmap K V), Inv hash m →
      (k, v) ∈ pairs m → (∀ op ∈ ops, touchesKey k op = false) →
      execOps hash m ops = some mf →
      Inv hash mf ∧ (k, v) ∈ pairs mf
  | [], m, mf, hinv, hmem, _, hex => by
    simp only [execOps, List.foldlM_nil] at hex
    have := Option.some.inj hex
    rw [← this]
    exact ⟨hinv, hmem⟩
  | op :: ops, m, mf, hinv, hmem, hall, hex => by
    simp only [execOps, List.foldlM_cons] at hex
    rcases happ : applyOp hash m op with _ | m₁
    · rw [happ] at hex
      simp at hex
    · rw [happ] at hex
      simp only [Option.bind_eq_bind, Option.some_bind] at hex
      have hinv₁ := applyOp_inv hinv happ
      have hmem₁ := applyOp_preserves_key hinv hmem
        (hall op (List.mem_cons_self op ops)) happ
      exact execOps_preserves_key ops m₁ mf hinv₁ hmem₁
        (fun o ho => hall o (List.mem_cons_of_mem op ho)) hex

lemma reachable_inv {hash : K → Nat} {m : Hashmap K V}
    (h : Reachable hash m) : Inv hash m := by
  induction h with
  | new => exact inv_new
  | insert hr heq ih =>
    obtain ⟨m₂, r₂, heq₂, hinv', -⟩ := insert_spec ih _ _
    rw [heq] at heq₂
    have := (Prod.mk.injEq .. ▸ Option.some.inj heq₂.symm).1
    rw [← this]
    exact hinv'
  | remove hr heq ih =>
    exact (remove_spec ih heq).1
  | entry hr heq ih =>
    obtain ⟨m₂, rv₂, heq₂, hinv', -⟩ := entry_spec ih _ _
    rw [heq] at heq₂
    have := (Prod.mk.injEq .. ▸ Option.some.inj heq₂.symm).1
    rw [← this]
    exact hinv'
  | resize hr heq ih =>
    obtain ⟨m₂, heq₂, -, -, -, hinv'⟩ := resize_spec ih
    rw [heq] at heq₂
    have := Option.some.inj heq₂.symm
    rw [← this]
    exact hinv'

lemma iterNext_nob {m : Hashmap K V} {cb ci : Nat}
    (hb : m.buckets[cb]? = none) : iterNext m cb ci = none := by
  rw [iterNext.eq_def, hb]

lemma iterNext_yield {m : Hashmap K V} {cb ci : Nat} {b : List (K × V)}
    {p : K × V} (hb : m.buckets[cb]? = some b) (hp : b[ci]? = some p) :
    iterNext m cb ci = some (p, cb, ci + 1) := by
  rw [iterNext.eq_def, hb]
  simp only [hp]

lemma iterNext_skip {m : Hashmap K V} {cb ci : Nat} {b : List (K × V)}
    (hb : m.buckets[cb]? = some b) (hp : b[ci]? = none) :
    iterNext m cb ci = iterNext m (cb + 1) 0 := by
  rw [iterNext.eq_def, hb]
  simp only [hp]

lemma iterAll_nob {m : Hashmap K V} {cb ci : Nat}
    (hb : m.buckets[cb]? = none) : iterAll m cb ci = [] := by
  rw [iterAll.eq_def, hb]

lemma iterAll_yield {m : Hashmap K V} {cb ci : Nat} {b : List (K × V)}
    {p : K × V} (hb : m.buckets[cb]? = some b) (hp : b[ci]? = some p) :
    iterAll m cb ci = p :: iterAll m cb (ci + 1) := by
  rw [iterAll.eq_def, hb]
  split
  · rename_i heq1
    exact Option.noConfusion heq1
  · rename_i b' heq1
    have hbb := Option.some.inj heq1
    subst hbb
    split
    · rename_i p' heq2
      rw [hp] at heq2
      rw [← Option.some.inj heq2]
    · rename_i heq2
      rw [hp] at heq2
      exact Option.noConfusion heq2

lemma iterAll_skip {m : Hashmap K V} {cb ci : Nat} {b : List (K × V)}
    (hb : m.buckets[cb]? = some b) (hp : b[ci]? = none) :
    iterAll m cb ci = iterAll m (cb + 1) 0 := by
  rw [iterAll.eq_def, hb]
  split
  · rename_i heq1
    exact Option.noConfusion heq1
  · rename_i b' heq1
    have hbb := Option.some.inj heq1
    subst hbb
    split
    · rename_i p' heq2
      rw [hp] at heq2
      exact Option.noConfusion heq2
    · rfl

lemma remaining_nob {m : Hashmap K V} {cb : Nat} (ci : Nat)
    (hb : m.buckets[cb]? = none) : remaining m cb ci = [] := by
  have hlen : m.buckets.length ≤ cb := List.getElem?_eq_none_iff.mp hb
  unfold remaining
  rw [List.drop_eq_nil_of_le hlen]

lemma remaining_zero_ci (m : Hashmap K V) (cb : Nat) :
    remaining m cb 0 = (m.buckets.drop cb).flatten := by
  unfold remaining
  rcases hd : m.buckets.drop cb with _ | ⟨c, rest⟩
  · simp
  · simp

lemma drop_cons_of_getElem? {α : Type _} {l : List α} {i : Nat} {a : α}
    (h : l[i]? = some a) : l.drop i = a :: l.drop (i + 1) := by
  obtain ⟨hlt, hget⟩ := List.getElem?_eq_some.mp h
  rw [← hget]
  exact (List.getElem_cons_drop l i hlt).symm

lemma remaining_yield {m : Hashmap K V} {cb ci : Nat} {b : List (K × V)}
    {p : K × V} (hb : m.buckets[cb]? = some b) (hp : b[ci]? = some p) :
    remaining m cb ci = p :: remaining m cb (ci + 1) := by
  have hd : m.buckets.drop cb = b :: m.buckets.drop (cb + 1) :=
    drop_cons_of_getElem? hb
  have hbd : b.drop ci = p :: b.drop (ci + 1) := drop_cons_of_getElem? hp
  unfold remaining
  rw [hd]
  show b.drop ci ++ (m.buckets.drop (cb + 1)).flatten
      = p :: (b.drop (ci + 1) ++ (m.buckets.drop (cb + 1)).flatten)
  rw [hbd]
  rfl

lemma remaining_skip {m : Hashmap K V} {cb ci : Nat} {b : List (K × V)}
    (hb : m.buckets[cb]? = some b) (hp : b[ci]? = none) :
    remaining m cb ci = remaining m (cb + 1) 0 := by
  have hd : m.buckets.drop cb = b :: m.buckets.drop (cb + 1) :=
    drop_cons_of_getElem? hb
  have hbd : b.drop ci = [] :=
    List.drop_eq_nil_of_le (List.getElem?_eq_none_iff.mp hp)
  rw [remaining_zero_ci]
  unfold remaining
  rw [hd]
  show b.drop ci ++ (m.buckets.drop (cb + 1)).flatten
      = (m.buckets.drop (cb + 1)).flatten
  rw [hbd]
  rfl

lemma iterAll_eq_remaining (m : Hashmap K V) (cb ci : Nat) :
    iterAll m cb ci = remaining m cb ci := by
  induction cb, ci using iterAll.induct m with
  | case1 cb ci hb =>
    rw [iterAll_nob hb, remaining_nob ci hb]
  | case2 cb ci b hb p hp ih =>
    rw [iterAll_yield hb hp, remaining_yield hb hp, ih]
  | case3 cb ci b hb hp ih =>
    rw [iterAll_skip hb hp, remaining_skip hb hp, ih]

lemma iterAll_zero (m : Hashmap K V) : iterAll m 0 0 = pairs m := by
  rw [iterAll_eq_remaining, remaining_zero_ci, List.drop_zero]
  rfl

lemma iterAll_iterNext (m : Hashmap K V) (cb ci : Nat) :
    iterAll m cb ci = match iterNext m cb ci with
      | none => []
      | some r => r.1 :: iterAll m r.2.1 r.2.2 := by
  induction cb, ci using iterNext.induct m with
  | case1 cb ci hb =>
    rw [iterAll_nob hb, iterNext_nob hb]
  | case2 cb ci b hb p hp =>
    rw [iterAll_yield hb hp, iterNext_yield hb hp]
  | case3 cb ci b hb hp ih =>
    rw [iterAll_skip hb hp, iterNext_skip hb hp, ih]

lemma iterNext_past_end {m : Hashmap K V} {cb : Nat} (ci : Nat)
    (h : m.buckets.length ≤ cb) : iterNext m cb ci = none :=
  iterNext_nob (List.getElem?_eq_none_iff.mpr h)

end Hashmap

open Hashmap

/-- Claim C1: the claim says a freshly constructed table (zero buckets)
answers get with absent and contains_key with false without any
out-of-bounds fault.  The code instead computes the mask from
buckets.len() - 1, which underflows at zero buckets, and indexes the empty
bucket vector: both lookups fault (outer none in the embedding) instead of
returning absent.  This theorem evaluates the code at the failing input. -/
theorem claim_C1_empty_lookup_faults :
    get (fun n => n) (new : Hashmap Nat Nat) 0 = none ∧
    containsKey (fun n => n) (new : Hashmap Nat Nat) 0 = none :=
  ⟨by decide, by decide⟩

/-- Claim C2: the claim says items always equals the sum of bucket lengths,
including after entry followed by insert_or.  VacantEntry::insert pushes
the new pair without incrementing items, so one entry-api insertion on a
fresh table stores one pair while items stays 0.  This theorem evaluates
the code at the failing input. -/
theorem claim_C2_entry_insert_desyncs_items :
    entryInsertOr (fun n => n) (new : Hashmap Nat Nat) 0 5
      = some ({ buckets := [[(0, 5)]], items := 0 }, 5) ∧
    (pairs ({ buckets := [[(0, 5)]], items := 0 } : Hashmap Nat Nat)).length
      ≠ ({ buckets := [[(0, 5)]], items := 0 } : Hashmap Nat Nat).items :=
  ⟨by decide, by decide⟩

/-- Claim C3: insert on a key already present replaces the value in place,
returns the old value and leaves the item count unchanged; on a fresh key
it adds the pair, returns absent and increments the item count by one. -/
theorem claim_C3_insert_semantics {K V : Type} [DecidableEq K]
    (hash : K → Nat) (m m' : Hashmap K V) (k : K) (v : V) (r : Option V)
    (hinv : Inv hash m) (h : Hashmap.insert hash m k v = some (m', r)) :
    (k, v) ∈ pairs m' ∧
    (∀ v₀, (k, v₀) ∈ pairs m → r = some v₀ ∧ m'.items = m.items ∧
      (pairs m').length = (pairs m).length) ∧
    ((∀ v₀, (k, v₀) ∉ pairs m) → r = none ∧ m'.items = m.items + 1 ∧
      (pairs m').Perm (pairs m ++ [(k, v)])) := by
  obtain ⟨m₂, r₂, heq, hinv', hpos', hmem, hframe, habs, hpres⟩ :=
    insert_spec hinv k v
  rw [h] at heq
  obtain ⟨hm, hr⟩ := Prod.mk.injEq .. ▸ Option.some.inj heq.symm
  subst hm
  subst hr
  exact ⟨hmem, fun v₀ hv₀ => hpres v₀ hv₀, habs⟩

/-- Witness for C3 at a concrete table containing key 0. -/
theorem claim_C3_insert_semantics_witness :
    Inv (fun n => n)
      ({ buckets := [[(0, 10)], [(1, 11)]], items := 2 } : Hashmap Nat Nat) ∧
    (0, 99) ∈ pairs
      ({ buckets := [[(0, 99)], [(1, 11)], [], []], items := 2 } : Hashmap Nat Nat) :=
  ⟨⟨Or.inr ⟨1, rfl⟩, by decide, by decide⟩,
   (claim_C3_insert_semantics (fun n => n)
      { buckets := [[(0, 10)], [(1, 11)]], items := 2 }
      { buckets := [[(0, 99)], [(1, 11)], [], []], items := 2 }
      0 99 (some 10)
      ⟨Or.inr ⟨1, rfl⟩, by decide, by decide⟩ (by decide)).1⟩

/-- Claim C4: a completed resize keeps len() identical, neither loses nor
duplicates entries (the stored pairs before and after are a permutation of
one another), and every value retrievable by get stays retrievable. -/
theorem claim_C4_resize_preserves {K V : Type} [DecidableEq K]
    (hash : K → Nat) (m m' : Hashmap K V) (hinv : Inv hash m)
    (h : Hashmap.resize hash m = some m') :
    Hashmap.len m' = Hashmap.len m ∧ (pairs m').Perm (pairs m) ∧
    (∀ k v, get hash m k = some (some v) → get hash m' k = some (some v)) := by
  obtain ⟨m₂, heq, hit, hlen, hperm, hinv'⟩ := resize_spec hinv
  rw [h] at heq
  have hm := Option.some.inj heq.symm
  subst hm
  refine ⟨hit, hperm, ?_⟩
  intro k v hg
  exact (get_some_iff hinv').mpr (hperm.mem_iff.mpr ((get_some_iff hinv).mp hg))

/-- Witness for C4 at a concrete one-bucket table. -/
theorem claim_C4_resize_preserves_witness :
    Inv (fun n => n) ({ buckets := [[(0, 10)]], items := 1 } : Hashmap Nat Nat) ∧
    Hashmap.len ({ buckets := [[(0, 10)], []], items := 1 } : Hashmap Nat Nat)
      = Hashmap.len ({ buckets := [[(0, 10)]], items := 1 } : Hashmap Nat Nat) :=
  ⟨⟨Or.inr ⟨0, rfl⟩, by decide, by decide⟩,
   (claim_C4_resize_preserves (fun n => n)
      { buckets := [[(0, 10)]], items := 1 }
      { buckets := [[(0, 10)], []], items := 1 }
      ⟨Or.inr ⟨0, rfl⟩, by decide, by decide⟩ (by decide)).1⟩

/-- Claim C5: remove of a stored key returns its value, decreases len() by
exactly one and makes get absent afterwards; remove of an absent key (the
table has at least one bucket, or the call would fault) returns absent and
leaves the table unchanged.  The items-equals-stored-pairs hypothesis
restricts tables to ones whose counter is in sync, which rules out the
usize underflow of items -= 1. -/
theorem claim_C5_remove_semantics {K V : Type} [DecidableEq K]
    (hash : K → Nat) (m m' : Hashmap K V) (k : K) (r : Option V)
    (hinv : Inv hash m) (hsync : m.items = (pairs m).length)
    (h : Hashmap.remove hash m k = some (m', r)) :
    (∀ v₀, (k, v₀) ∈ pairs m → r = some v₀ ∧ m'.items + 1 = m.items ∧
      get hash m' k = some none) ∧
    ((∀ v₀, (k, v₀) ∉ pairs m) → r = none ∧ m' = m) := by
  obtain ⟨hinv', hlen, hpos, habs, hpres⟩ := remove_spec hinv h
  constructor
  · intro v₀ hv₀
    obtain ⟨hr, hit, hperm, hnone⟩ := hpres v₀ hv₀
    refine ⟨hr, ?_, ?_⟩
    · have hp : 0 < (pairs m).length :=
        List.length_pos.mpr (List.ne_nil_of_mem hv₀)
      omega
    · have hpos' : 0 < m'.buckets.length := by
        rw [hlen]
        exact hpos
      exact (get_none_iff hinv' hpos').mpr hnone
  · intro habs'
    obtain ⟨hm, hr⟩ := habs habs'
    exact ⟨hr, hm⟩

/-- Witness for C5 removing key 0 from a concrete two-bucket table. -/
theorem claim_C5_remove_semantics_witness :
    Inv (fun n => n)
      ({ buckets := [[(0, 10)], [(1, 11)]], items := 2 } : Hashmap Nat Nat) ∧
    get (fun n => n) ({ buckets := [[], [(1, 11)]], items := 1 } : Hashmap Nat Nat) 0
      = some none :=
  ⟨⟨Or.inr ⟨1, rfl⟩, by decide, by decide⟩,
   ((claim_C5_remove_semantics (fun n => n)
      { buckets := [[(0, 10)], [(1, 11)]], items := 2 }
      { buckets := [[], [(1, 11)]], items := 1 }
      0 (some 10)
      ⟨Or.inr ⟨1, rfl⟩, by decide, by decide⟩ (by decide) (by decide)).1
      10 (by decide)).2.2⟩

/-- Claim C6: entry(k).insert_or(d) on an absent key inserts (k, d) and
returns the inserted value; on a present key it returns the stored value
and changes nothing. -/
theorem claim_C6_entry_insert_or {K V : Type} [DecidableEq K]
    (hash : K → Nat) (m m' : Hashmap K V) (k : K) (d rv : V)
    (hinv : Inv hash m) (h : entryInsertOr hash m k d = some (m', rv)) :
    ((∀ v₀, (k, v₀) ∉ pairs m) → rv = d ∧ (k, d) ∈ pairs m' ∧
      (pairs m').Perm (pairs m ++ [(k, d)])) ∧
    (∀ v₀, (k, v₀) ∈ pairs m → rv = v₀ ∧ (pairs m').Perm (pairs m)) := by
  obtain ⟨m₂, rv₂, heq, hinv', hpos', hit, hpres, habs, hframe⟩ :=
    entry_spec hinv k d
  rw [h] at heq
  obtain ⟨hm, hr⟩ := Prod.mk.injEq .. ▸ Option.some.inj heq.symm
  subst hm
  subst hr
  constructor
  · intro habs'
    obtain ⟨h1, h2, h3⟩ := habs habs'
    exact ⟨h1, h3, h2⟩
  · intro v₀ hv₀
    exact hpres v₀ hv₀

/-- Witness for C6 at a concrete table holding key 0 with value 10. -/
theorem claim_C6_entry_insert_or_witness :
    Inv (fun n => n) ({ buckets := [[(0, 10)]], items := 1 } : Hashmap Nat Nat) ∧
    ((10 : Nat) = 10 ∧
      (pairs ({ buckets := [[(0, 10)], []], items := 1 } : Hashmap Nat Nat)).Perm
        (pairs ({ buckets := [[(0, 10)]], items := 1 } : Hashmap Nat Nat))) :=
  ⟨⟨Or.inr ⟨0, rfl⟩, by decide, by decide⟩,
   (claim_C6_entry_insert_or (fun n => n)
      { buckets := [[(0, 10)]], items := 1 }
      { buckets := [[(0, 10)], []], items := 1 }
      0 5 10
      ⟨Or.inr ⟨0, rfl⟩, by decide, by decide⟩ (by decide)).2 10 (by decide)⟩

/-- Claim C7: after insert(k, v), as long as no later operation inserts or
removes key k (resizes and entry calls on any key, and inserts or removes
of other keys, are allowed), get(k) keeps answering v and contains_key(k)
keeps answering true. -/
theorem claim_C7_roundtrip {K V : Type} [DecidableEq K]
    (hash : K → Nat) (m mi mf : Hashmap K V) (k : K) (v : V) (r : Option V)
    (ops : List (Op K V)) (hinv : Inv hash m)
    (hins : Hashmap.insert hash m k v = some (mi, r))
    (hops : ∀ op ∈ ops, touchesKey k op = false)
    (hex : execOps hash mi ops = some mf) :
    get hash mf k = some (some v) ∧ containsKey hash mf k = some true := by
  obtain ⟨m₂, r₂, heq, hinv₂, hpos₂, hmem₂, -⟩ := insert_spec hinv k v
  rw [hins] at heq
  obtain ⟨hm, hr⟩ := Prod.mk.injEq .. ▸ Option.some.inj heq.symm
  subst hm
  subst hr
  obtain ⟨hinvf, hmemf⟩ := execOps_preserves_key ops m₂ mf hinv₂ hmem₂ hops hex
  have hposf : 0 < mf.buckets.length := by
    obtain ⟨i, b, hib, -⟩ := mem_pairs_iff.mp hmemf
    have := (List.getElem?_eq_some.mp hib).1
    omega
  exact ⟨(get_some_iff hinvf).mpr hmemf,
    (containsKey_iff hinvf hposf).mpr ⟨v, hmemf⟩⟩

/-- Witness for C7: insert 0 into an empty table, then a resize. -/
theorem claim_C7_roundtrip_witness :
    Inv (fun n => n) (new : Hashmap Nat Nat) ∧
    get (fun n => n) ({ buckets := [[(0, 5)], []], items := 1 } : Hashmap Nat Nat) 0
      = some (some 5) :=
  ⟨inv_new,
   (claim_C7_roundtrip (fun n => n) new
      { buckets := [[(0, 5)]], items := 1 }
      { buckets := [[(0, 5)], []], items := 1 }
      0 5 none [Op.resize] inv_new (by decide) (by decide) (by decide)).1⟩

/-- Claim C8: the traversal from the initial cursor yields exactly the
stored pairs: as many pairs as the table holds, with pairwise distinct
keys, and exactly those retrievable through get; iterAll agrees step by
step with Iter::next, and past the last bucket next answers none forever. -/
theorem claim_C8_traversal {K V : Type} [DecidableEq K]
    (hash : K → Nat) (m : Hashmap K V) (hinv : Inv hash m) :
    (∀ cb ci, iterAll m cb ci = match iterNext m cb ci with
      | none => []
      | some s => s.1 :: iterAll m s.2.1 s.2.2) ∧
    (iterAll m 0 0).length = (pairs m).length ∧
    ((iterAll m 0 0).map Prod.fst).Nodup ∧
    (∀ k v, (k, v) ∈ iterAll m 0 0 ↔ get hash m k = some (some v)) ∧
    (∀ cb ci, m.buckets.length ≤ cb → iterNext m cb ci = none) := by
  rw [iterAll_zero]
  refine ⟨fun cb ci => iterAll_iterNext m cb ci, rfl, hinv.2.2, ?_, ?_⟩
  · intro k v
    exact ⟨fun h => (get_some_iff hinv).mpr h, fun h => (get_some_iff hinv).mp h⟩
  · intro cb ci h
    exact iterNext_past_end ci h

/-- Witness for C8 at a concrete two-bucket table. -/
theorem claim_C8_traversal_witness :
    Inv (fun n => n)
      ({ buckets := [[(0, 10)], [(1, 11)]], items := 2 } : Hashmap Nat Nat) ∧
    ((iterAll ({ buckets := [[(0, 10)], [(1, 11)]], items := 2 } : Hashmap Nat Nat)
        0 0).map Prod.fst).Nodup :=
  ⟨⟨Or.inr ⟨1, rfl⟩, by decide, by decide⟩,
   (claim_C8_traversal (fun n => n)
      { buckets := [[(0, 10)], [(1, 11)]], items := 2 }
      ⟨Or.inr ⟨1, rfl⟩, by decide, by decide⟩).2.2.1⟩

/-- Claim C9: every reachable table has zero buckets or a power of two of
them; resize targets one bucket from zero and exactly doubles otherwise;
and the masked index lands inside the bucket range whenever the count is a
(nonzero) power of two. -/
theorem claim_C9_pow2_buckets {K V : Type} [DecidableEq K] (hash : K → Nat) :
    (∀ m : Hashmap K V, Reachable hash m →
      m.buckets.length = 0 ∨ Pow2 m.buckets.length) ∧
    (∀ m m' : Hashmap K V, Hashmap.resize hash m = some m' →
      m'.buckets.length =
        if m.buckets.length = 0 then 1 else 2 * m.buckets.length) ∧
    (∀ (n : Nat) (k : K), Pow2 n → maskIdx hash n k < n) := by
  refine ⟨fun m hr => (reachable_inv hr).1, fun m m' h => ?_,
    fun n k hp => maskIdx_lt hp k⟩
  rw [resize_len h, targetSize_eq]

/-- Witness for C9: the empty table is reachable with zero buckets, and
the mask bound holds at the concrete power of two 2. -/
theorem claim_C9_pow2_buckets_witness :
    Reachable (fun n => n) (new : Hashmap Nat Nat) ∧
    ((new : Hashmap Nat Nat).buckets.length = 0 ∨
      Pow2 (new : Hashmap Nat Nat).buckets.length) ∧
    Pow2 2 ∧ maskIdx (fun n => n) 2 (5 : Nat) < 2 :=
  ⟨Reachable.new,
   (claim_C9_pow2_buckets (K := Nat) (V := Nat) (fun n => n)).1 _ Reachable.new,
   ⟨1, rfl⟩,
   (claim_C9_pow2_buckets (K := Nat) (V := Nat) (fun n => n)).2.2 2 5 ⟨1, rfl⟩⟩

/-- Claim C10: insert and remove do not disturb other keys: for any key
k0 distinct from the operated key, the pair set at k0 is untouched and,
whenever get is defined before the call (at least one bucket), its answer
at k0 is bit-for-bit the same after insert — resize included — and after
remove. -/
theorem claim_C10_frame {K V : Type} [DecidableEq K]
    (hash : K → Nat) (m mi mr : Hashmap K V) (k k0 : K) (v : V)
    (ri rr : Option V) (hinv : Inv hash m) (hne : k0 ≠ k) :
    (Hashmap.insert hash m k v = some (mi, ri) →
      (∀ w, (k0, w) ∈ pairs mi ↔ (k0, w) ∈ pairs m) ∧
      (0 < m.buckets.length → get hash mi k0 = get hash m k0)) ∧
    (Hashmap.remove hash m k = some (mr, rr) →
      get hash mr k0 = get hash m k0) := by
  constructor
  · intro h
    obtain ⟨m₂, r₂, heq, hinv', hpos', hmem, hframe, -⟩ := insert_spec hinv k v
    rw [h] at heq
    obtain ⟨hm, hr⟩ := Prod.mk.injEq .. ▸ Option.some.inj heq.symm
    subst hm
    subst hr
    refine ⟨fun w => hframe k0 w hne, fun hpos => ?_⟩
    exact get_eq_of_same_mem hinv' hinv hpos' hpos (fun w => hframe k0 w hne)
  · intro h
    obtain ⟨hinv', hlen, hpos, habs, hpres⟩ := remove_spec hinv h
    have hpos' : 0 < mr.buckets.length := by
      rw [hlen]
      exact hpos
    have hsame : ∀ w, (k0, w) ∈ pairs mr ↔ (k0, w) ∈ pairs m := by
      intro w
      by_cases hex : ∃ u, (k, u) ∈ pairs m
      · obtain ⟨u, hu⟩ := hex
        obtain ⟨-, -, hperm, -⟩ := hpres u hu
        rw [hperm.mem_iff]
        simp only [List.mem_cons]
        constructor
        · intro hh
          exact Or.inr hh
        · rintro (hh | hh)
          · exact absurd (congrArg Prod.fst hh) hne
          · exact hh
      · push_neg at hex
        obtain ⟨hm, -⟩ := habs hex
        rw [hm]
    exact get_eq_of_same_mem hinv' hinv hpos' hpos hsame

/-- Witness for C10 at a concrete two-key table, operating on key 0 and
observing key 1. -/
theorem claim_C10_frame_witness :
    Inv (fun n => n)
      ({ buckets := [[(0, 10)], [(1, 11)]], items := 2 } : Hashmap Nat Nat) ∧
    get (fun n => n) ({ buckets := [[], [(1, 11)]], items := 1 } : Hashmap Nat Nat) 1
      = get (fun n => n)
          ({ buckets := [[(0, 10)], [(1, 11)]], items := 2 } : Hashmap Nat Nat) 1 :=
  ⟨⟨Or.inr ⟨1, rfl⟩, by decide, by decide⟩,
   (claim_C10_frame (fun n => n)
      { buckets := [[(0, 10)], [(1, 11)]], items := 2 }
      { buckets := [[(0, 99)], [(1, 11)], [], []], items := 2 }
      { buckets := [[], [(1, 11)]], items := 1 }
      0 1 99 (some 10) (some 10)
      ⟨Or.inr ⟨1, rfl⟩, by decide, by decide⟩ (by decide)).2 (by decide)⟩

end RustyHashmap
